import Mathlib

/-!
Verification of the document pipeline of the Appendix-Generator repository.

Strings are modelled as `List Char` (one entry per Unicode code point, matching
Python's `str` indexing).  Python integer results of float expressions that are
exact or provably equal to the corresponding integer arithmetic
(`int(x * 0.6)`, comparisons against `x * 0.8`, `round(x, 1)`) are modelled
with exact `Nat`/`Rat` arithmetic; every such spot is noted next to the
definition it concerns.
-/

/-! ## Python string primitives -/

/-- Python's whitespace test used by `str.strip`, `str.split()` and `\s`
(restricted to the ASCII whitespace characters). -/
def pyIsSpace (c : Char) : Bool :=
  c == ' ' || c == '\t' || c == '\n' || c == '\r' || c == '\x0b' || c == '\x0c'

/-- Python `str.strip()`: remove leading and trailing whitespace. -/
def pyStrip (s : List Char) : List Char :=
  ((s.dropWhile pyIsSpace).reverse.dropWhile pyIsSpace).reverse

/-- Python `s[-k:]`.  For `k = 0` this is `s[0:] = s` (the `-0` quirk);
for `k > 0` it is the last `min k (len s)` characters. -/
def pyTakeLast (s : List Char) (k : Nat) : List Char :=
  if k = 0 then s else s.drop (s.length - k)

/-- Python `hay.find(needle)`: the least index at which `needle` occurs,
`none` standing for Python's `-1`. -/
def findSub (needle : List Char) : List Char → Option Nat
  | [] => if needle.isEmpty then some 0 else none
  | c :: hay =>
    if needle.isPrefixOf (c :: hay) then some 0
    else (findSub needle hay).map (· + 1)

/-- Python `hay.rfind(needle)`: the greatest index at which `needle` occurs,
`none` standing for Python's `-1`. -/
def rfindSub (needle : List Char) : List Char → Option Nat
  | [] => if needle.isEmpty then some 0 else none
  | c :: hay =>
    match rfindSub needle hay with
    | some j => some (j + 1)
    | none => if needle.isPrefixOf (c :: hay) then some 0 else none

/-- Python `needle in hay` (substring containment). -/
def containsSub (needle hay : List Char) : Bool :=
  (findSub needle hay).isSome

/-- Python `str.lower()` (ASCII case folding suffices for the keyword tests
performed by the code). -/
def pyLower (s : List Char) : List Char :=
  s.map Char.toLower

/-- Python `str.split()` with no argument: split on runs of whitespace,
discarding empty fields. -/
def pyWords (s : List Char) : List (List Char) :=
  (s.splitOnP pyIsSpace).filter (· ≠ [])

/-! ## `truncate_content_smart` (src/utils/pdf_handler.py, lines 114-169) -/

/-- The page marker prefix `"[Page "` searched for by the truncation code. -/
def PAGE_MARKER : List Char := "[Page ".toList

/-- The fixed truncation marker inserted between the kept head and tail. -/
def TRUNC_MARKER : List Char :=
  "\n\n[... CONTENT TRUNCATED FOR LENGTH - MIDDLE SECTION OMITTED ...]\n\n".toList

/-- The `truncation_info` dictionary returned by `truncate_content_smart`. -/
structure TruncInfo where
  was_truncated : Bool
  original_chars : Nat
  final_chars : Nat
  kept_percentage : Rat
deriving Repr, DecidableEq

/-- Round-half-to-even on rationals, the rounding used by Python's `round`. -/
def roundHalfEven (q : Rat) : Int :=
  let f := q.floor
  let r := q - (f : Rat)
  if r < 1 / 2 then f
  else if 1 / 2 < r then f + 1
  else if f % 2 = 0 then f else f + 1

/-- Python `round(x, 1)` on an exact rational value. -/
def round1dp (q : Rat) : Rat :=
  (roundHalfEven (10 * q) : Rat) / 10

/-- The `beginning` value computed in the truncating branch:
`content[:int(max_chars * 0.6)]`, cut back to the last `"[Page "` occurrence
when that occurrence lies strictly inside the last 20% of the window.
`int(max_chars * 0.6)` is modelled as `6 * max_chars / 10` and the float
comparison `j > beginning_chars * 0.8` as `10 * j > 8 * beginning_chars`;
both agree with the Python float computations for all representable sizes. -/
def truncHead (content : List Char) (max_chars : Nat) : List Char :=
  let beginning_chars := 6 * max_chars / 10
  let beginning := content.take beginning_chars
  match rfindSub PAGE_MARKER beginning with
  | some j => if 10 * j > 8 * beginning_chars then beginning.take j else beginning
  | none => beginning

/-- The `ending` value computed in the truncating branch:
`content[-int(max_chars * 0.4):]`, advanced to the first `"[Page "`
occurrence when that occurrence lies strictly inside the first 20% of the
window.  `int(max_chars * 0.4)` is modelled as `4 * max_chars / 10` and the
float comparison `j < end_chars * 0.2` as `10 * j < 2 * end_chars`. -/
def truncTail (content : List Char) (max_chars : Nat) : List Char :=
  let end_chars := 4 * max_chars / 10
  let ending := pyTakeLast content end_chars
  match findSub PAGE_MARKER ending with
  | some j => if 10 * j < 2 * end_chars then ending.drop j else ending
  | none => ending

/-- `truncate_content_smart(content, max_chars)`: returns the (possibly)
truncated text together with the `truncation_info` dictionary. -/
def truncate_content_smart (content : List Char) (max_chars : Nat) :
    List Char × TruncInfo :=
  if content.length ≤ max_chars then
    (content, ⟨false, content.length, content.length, 100⟩)
  else
    let truncated := truncHead content max_chars ++ TRUNC_MARKER ++ truncTail content max_chars
    (truncated,
      ⟨true, content.length, truncated.length,
        round1dp ((truncated.length : Rat) / (content.length : Rat) * 100)⟩)

/-! Spec-side characterisations of the head/tail trimming, written after the
wording of the specification: the head window is cut back to the nearest
preceding page marker when one occurs within the last 20% of the window, the
tail window is advanced to the nearest following page marker when one occurs
within the first 20% of the window. -/

/-- The head segment the specification describes for a truncated text. -/
def HeadSpec (c : List Char) (b : Nat) (head : List Char) : Prop :=
  let bc := 6 * b / 10
  let w := c.take bc
  (∃ j, PAGE_MARKER <+: w.drop j ∧ 10 * j > 8 * bc ∧
      (∀ k, j < k → ¬ PAGE_MARKER <+: w.drop k) ∧ head = w.take j)
  ∨ ((∀ j, 10 * j > 8 * bc → ¬ PAGE_MARKER <+: w.drop j) ∧ head = w)

/-- The tail segment the specification describes for a truncated text. -/
def TailSpec (c : List Char) (b : Nat) (tail : List Char) : Prop :=
  let ec := 4 * b / 10
  let w := pyTakeLast c ec
  (∃ j, PAGE_MARKER <+: w.drop j ∧ 10 * j < 2 * ec ∧
      (∀ k, k < j → ¬ PAGE_MARKER <+: w.drop k) ∧ tail = w.drop j)
  ∨ ((∀ j, 10 * j < 2 * ec → ¬ PAGE_MARKER <+: w.drop j) ∧ tail = w)

/-- Synthetic three-segment text used to exhibit that the middle segment is
dropped by truncation. -/
def SYNTH_TEXT : List Char := "HHHHHHzzzzzzzzTTTT".toList

/-! ## `get_pdf_info` (src/utils/pdf_handler.py, lines 66-111)

The PDF itself is read through the external `pdfplumber` library; the model
takes the per-page extracted texts (`page.extract_text()`, with `[]` for a
page yielding no text) as input and embeds the logic of `get_pdf_info`
itself, which is the code under `src/`. -/

/-- The metadata dictionary built by `get_pdf_info` (success path). -/
structure PdfInfo where
  pages : Nat
  has_text : Bool
  estimated_words : Nat
  estimated_chars : Nat
deriving Repr, DecidableEq

/-- The `sample_text` accumulator: the first `min 10 n` page texts are
concatenated (pages yielding no text are skipped, which does not change the
concatenation). -/
def sampleText (pages : List (List Char)) : List Char :=
  (pages.take (min 10 pages.length)).foldl
    (fun acc t => if t ≠ [] then acc ++ t else acc) []

/-- `get_pdf_info`: page count plus sampled-extrapolation estimates.
The float expressions `int(len(sample_text) / sample_pages * pages)` are
modelled by exact natural arithmetic `len * pages / sample_pages`. -/
def get_pdf_info (pages : List (List Char)) : PdfInfo :=
  let n := pages.length
  let sample_pages := min 10 n
  let sample_text := sampleText pages
  if sample_text.isEmpty then
    { pages := n, has_text := false, estimated_words := 0, estimated_chars := 0 }
  else
    { pages := n, has_text := true,
      estimated_chars := sample_text.length * n / sample_pages,
      estimated_words := (pyWords sample_text).length * n / sample_pages }

/-- One synthetic page text containing exactly 100 one-letter words. -/
def PAGE100 : List Char := List.intercalate [' '] (List.replicate 100 ['a'])

/-- A 20-page PDF: pages 1-10 each hold `PAGE100`, pages 11-20 yield no
text. -/
def PAGES_RAW : List (List Char) :=
  List.replicate 10 PAGE100 ++ List.replicate 10 []

/-- The same 20-page PDF with a trailing newline on every sampled page, so
that words do not merge across the separator-less concatenation. -/
def PAGES_NL : List (List Char) :=
  List.replicate 10 (PAGE100 ++ ['\n']) ++ List.replicate 10 []

/-- A variant of `PAGES_NL` differing only in the unsampled pages 11-20. -/
def PAGES_NL_ALT : List (List Char) :=
  List.replicate 10 (PAGE100 ++ ['\n']) ++ List.replicate 10 ['q']

/-! ## Error classification in `extract_text_from_pdf`
(src/utils/pdf_handler.py, lines 54-61) -/

/-- The three branches of the `except` handler. -/
inductive ExtractErrorClass where
  | passwordProtected
  | corrupted
  | unreadable
deriving Repr, DecidableEq

/-- Message raised for password-protected PDFs. -/
def PASSWORD_MSG : List Char :=
  "🔒 This PDF is password-protected. Please use an unprotected PDF file.".toList

/-- Message raised for corrupted PDFs. -/
def CORRUPTED_MSG : List Char :=
  "⚠️ This PDF file appears to be corrupted. Please try a different file or re-download the PDF.".toList

/-- Prefix of the generic catch-all message. -/
def UNREADABLE_PREFIX : List Char := "⚠️ Could not read PDF file: ".toList

/-- Suffix of the generic catch-all message. -/
def UNREADABLE_SUFFIX : List Char :=
  "\n\n💡 Make sure the file is a valid PDF document.".toList

/-- Branch selection of the `except` handler, driven by substring tests on
the lowercased exception text. -/
def classify_extraction_error (e : List Char) : ExtractErrorClass :=
  let m := pyLower e
  if containsSub "password".toList m || containsSub "encrypted".toList m then
    .passwordProtected
  else if containsSub "corrupt".toList m || containsSub "damaged".toList m then
    .corrupted
  else
    .unreadable

/-- The message of the exception re-raised by `extract_text_from_pdf` for an
underlying exception text `e`. -/
def extraction_error_message (e : List Char) : List Char :=
  match classify_extraction_error e with
  | .passwordProtected => PASSWORD_MSG
  | .corrupted => CORRUPTED_MSG
  | .unreadable => UNREADABLE_PREFIX ++ e ++ UNREADABLE_SUFFIX

/-! ## `parse_inline_formatting` (src/utils/export.py, lines 125-179) -/

/-- The formatting dictionary attached to a span. -/
structure Fmt where
  bold : Bool := false
  italic : Bool := false
  underline : Bool := false
  strikethrough : Bool := false
  superscript : Bool := false
  subscript : Bool := false
  code : Bool := false
deriving Repr, DecidableEq

/-- The twelve regex patterns of `parse_inline_formatting`, in source order.
Every pattern has the shape `L(.+?)R` with literal delimiters `L`, `R`, so it
is represented by its delimiter pair and formatting dictionary. -/
def inlinePatterns : List (List Char × List Char × Fmt) :=
  [ ("***".toList, "***".toList, { bold := true, italic := true }),
    ("**".toList, "**".toList, { bold := true }),
    ("__".toList, "__".toList, { bold := true }),
    ("*".toList, "*".toList, { italic := true }),
    ("_".toList, "_".toList, { italic := true }),
    ("~~".toList, "~~".toList, { strikethrough := true }),
    ("<u>".toList, "</u>".toList, { underline := true }),
    ("<sup>".toList, "</sup>".toList, { superscript := true }),
    ("<sub>".toList, "</sub>".toList, { subscript := true }),
    ("^".toList, "^".toList, { superscript := true }),
    ("~".toList, "~".toList, { subscript := true }),
    ("`".toList, "`".toList, { code := true }) ]

/-- Lazy group matching for `(.+?)R` anchored at the start of `ys`: the least
`g ≥ 1` such that the first `g` characters are not newlines (regex `.`)
and `R` occurs immediately after them. -/
def lazyGroup (R : List Char) : List Char → Option Nat
  | [] => none
  | c :: ys =>
    if c == '\n' then none
    else if R.isPrefixOf ys then some 1
    else (lazyGroup R ys).map (· + 1)

/-- `re.search` for the pattern `L(.+?)R`: the leftmost start position `s`
admitting a match, paired with the (lazy, i.e. least) group length `g`. -/
def searchPat (L R : List Char) : List Char → Option (Nat × Nat)
  | [] => none
  | x :: t =>
    match (if L.isPrefixOf (x :: t) then lazyGroup R ((x :: t).drop L.length) else none) with
    | some g => some (0, g)
    | none => (searchPat L R t).map (fun p => (p.1 + 1, p.2))

/-- A semantic match of the pattern `L(.+?)R` inside `xs` at start `s` with
group length `g`. -/
def MatchesAt (L R xs : List Char) (s g : Nat) : Prop :=
  L <+: xs.drop s ∧ 1 ≤ g ∧ s + L.length + g + R.length ≤ xs.length ∧
    (∀ c ∈ (xs.drop (s + L.length)).take g, c ≠ '\n') ∧
    R <+: xs.drop (s + L.length + g)

instance (L R xs : List Char) (s g : Nat) : Decidable (MatchesAt L R xs s g) := by
  unfold MatchesAt
  infer_instance

/-- The candidate retained by the scanning loop of `parse_inline_formatting`. -/
structure PickResult where
  left : List Char
  right : List Char
  fmt : Fmt
  start : Nat
  group : Nat
deriving Repr, DecidableEq

/-- One step of the earliest-match selection loop: a later pattern replaces
the current candidate only when its match starts strictly earlier. -/
def pickStep (xs : List Char) (acc : Option PickResult)
    (p : List Char × List Char × Fmt) : Option PickResult :=
  match searchPat p.1 p.2.1 xs with
  | none => acc
  | some (s, g) =>
    match acc with
    | none => some ⟨p.1, p.2.1, p.2.2, s, g⟩
    | some e => if s < e.start then some ⟨p.1, p.2.1, p.2.2, s, g⟩ else acc

/-- The earliest-starting match among all patterns (ties broken by source
order of the pattern list, mirroring the strict `<` comparison in the code). -/
def pickEarliest (xs : List Char) : Option PickResult :=
  inlinePatterns.foldl (pickStep xs) none

/-- The scanning loop of `parse_inline_formatting`.  Each iteration consumes
at least one character, so `fuel := length of the input` makes the fuelled
recursion exact. -/
def parseInlineGo : Nat → List Char → List (List Char × Fmt)
  | 0, _ => []
  | fuel + 1, xs =>
    match pickEarliest xs with
    | none => if xs.isEmpty then [] else [(xs, ({} : Fmt))]
    | some r =>
      let content := (xs.drop (r.start + r.left.length)).take r.group
      let rest := xs.drop (r.start + r.left.length + r.group + r.right.length)
      (if 0 < r.start then [(xs.take r.start, ({} : Fmt))] else []) ++
        (content, r.fmt) :: parseInlineGo fuel rest

/-- `parse_inline_formatting(text)`: ordered spans with their formatting;
an empty result is replaced by the single plain span `(text, {})`. -/
def parse_inline_formatting (text : List Char) : List (List Char × Fmt) :=
  let result := parseInlineGo text.length text
  if result.isEmpty then [(text, ({} : Fmt))] else result

/-- Spec-side coverage predicate: the spans, with some pattern's delimiters
reinserted around each formatted span, reassemble exactly the input text.
This expresses "concatenated span texts = input with the matched marker
characters removed, no gaps, no overlaps". -/
inductive Reassembles : List (List Char × Fmt) → List Char → Prop where
  | nil : Reassembles [] []
  | trailing (s : List Char) : Reassembles [(s, ({} : Fmt))] s
  | plainThenFmt (pre L R : List Char) (f : Fmt) (c : List Char)
      (rest : List (List Char × Fmt)) (out : List Char) :
      (L, R, f) ∈ inlinePatterns → pre ≠ [] → c ≠ [] → Reassembles rest out →
      Reassembles ((pre, ({} : Fmt)) :: (c, f) :: rest) (pre ++ L ++ c ++ R ++ out)
  | fmtFirst (L R : List Char) (f : Fmt) (c : List Char)
      (rest : List (List Char × Fmt)) (out : List Char) :
      (L, R, f) ∈ inlinePatterns → c ≠ [] → Reassembles rest out →
      Reassembles ((c, f) :: rest) (L ++ c ++ R ++ out)

/-! ## `parse_table` (src/utils/export.py, lines 182-203) -/

/-- The structured table data returned by `parse_table`. -/
structure TableData where
  headers : List (List Char)
  rows : List (List (List Char))
deriving Repr, DecidableEq

/-- `[cell.strip() for cell in line.split('|')[1:-1]]`. -/
def splitCells (line : List Char) : List (List Char) :=
  (((line.splitOn '|').drop 1).dropLast).map pyStrip

/-- `parse_table(table_lines)`: header cells from the first line, data rows
from the lines after the separator, padded with empty cells and trimmed to
the header width. -/
def parse_table (table_lines : List (List Char)) : TableData :=
  if table_lines.length < 2 then ⟨[], []⟩
  else
    let headers := splitCells (table_lines.headD [])
    let rows := ((table_lines.drop 2).filter (fun l => l.contains '|')).map
      (fun line =>
        let cells := splitCells line
        (cells ++ List.replicate (headers.length - cells.length) []).take headers.length)
    ⟨headers, rows⟩

/-! ## `parse_markdown_content` (src/utils/export.py, lines 36-122) -/

/-- The typed block elements produced by the parser. -/
inductive MDElement where
  | empty
  | heading (level : Nat) (text : List Char)
  | table (lines : List (List Char))
  | code (language : List Char) (content : List Char)
  | blockquote (text : List Char)
  | bulletList (items : List (List Char))
  | numberedList (items : List (List Char))
  | paragraph (text : List Char)
deriving Repr, DecidableEq

/-- `re.match(r'^(#{1,5})\s+(.+)$', line)`: `1..5` leading hashes, at least
one whitespace character, then a non-empty remainder.  When the remainder
after the whitespace run is empty, the regex backtracks and `(.+)` captures
the last whitespace character (possible only when the run has length at
least 2). -/
def headerMatch (line : List Char) : Option (Nat × List Char) :=
  let k := (line.takeWhile (fun c => c == '#')).length
  let rest := line.drop k
  let w := (rest.takeWhile pyIsSpace).length
  if 1 ≤ k ∧ k ≤ 5 ∧ 1 ≤ w then
    if w < rest.length then some (k, rest.drop w)
    else if 2 ≤ w then some (k, rest.drop (w - 1))
    else none
  else none

/-- `re.match(r'^#{1,5}\s+', line)` (the weaker test used for paragraph
continuation). -/
def headerStart (line : List Char) : Bool :=
  let k := (line.takeWhile (fun c => c == '#')).length
  decide (1 ≤ k) && decide (k ≤ 5) &&
    (match line.drop k with
     | c :: _ => pyIsSpace c
     | [] => false)

/-- `re.match(r'^[\|\s\-:]+$', line)`: the table separator row test. -/
def isTableSep (line : List Char) : Bool :=
  !line.isEmpty && line.all (fun c => c == '|' || pyIsSpace c || c == '-' || c == ':')

/-- `line.strip().startswith('```')`. -/
def isFence (line : List Char) : Bool :=
  "```".toList.isPrefixOf (pyStrip line)

/-- `line.strip().startswith('>')`. -/
def isQuote (line : List Char) : Bool :=
  match pyStrip line with
  | c :: _ => c == '>'
  | [] => false

/-- `re.match(r'^[\s]*[-*]\s+', line)` together with the `re.sub` removal of
the matched prefix: returns the item text when the line is a bullet item. -/
def bulletItem (line : List Char) : Option (List Char) :=
  let r := line.dropWhile pyIsSpace
  match r with
  | m :: rest =>
    if m == '-' || m == '*' then
      let w := (rest.takeWhile pyIsSpace).length
      if 1 ≤ w then some (rest.drop w) else none
    else none
  | [] => none

/-- `re.match(r'^[\s]*\d+\.\s+', line)` together with the `re.sub` removal of
the matched prefix: returns the item text when the line is a numbered item. -/
def numberedItem (line : List Char) : Option (List Char) :=
  let r := line.dropWhile pyIsSpace
  let d := (r.takeWhile Char.isDigit).length
  if 1 ≤ d then
    match r.drop d with
    | c :: rest =>
      if c == '.' then
        let w := (rest.takeWhile pyIsSpace).length
        if 1 ≤ w then some (rest.drop w) else none
      else none
    | [] => none
  else none

/-- The paragraph-continuation test of the final branch. -/
def paraCont (l : List Char) : Bool :=
  !(pyStrip l).isEmpty && !headerStart l && !l.contains '|' &&
    !(["```".toList, ">".toList, "-".toList, "*".toList, "1.".toList].any
        (fun p => p.isPrefixOf (pyStrip l)))

/-- One iteration of the parsing loop at line index `i` (`i < lines.length`):
produces the appended element and the next line index.  The branch cascade
mirrors the source order: empty, heading, table, code fence, blockquote,
bullet list, numbered list, paragraph. -/
def mdStep (lines : List (List Char)) (i : Nat) : MDElement × Nat :=
  let line := lines.getD i []
  if (pyStrip line).isEmpty then (.empty, i + 1)
  else
    match headerMatch line with
    | some (lvl, txt) => (.heading lvl txt, i + 1)
    | none =>
      if line.contains '|' && decide (i + 1 < lines.length) &&
          isTableSep (lines.getD (i + 1) []) then
        let more := (lines.drop (i + 1)).takeWhile (fun l => l.contains '|')
        (.table (line :: more), i + 1 + more.length)
      else if isFence line then
        let language := (pyStrip line).drop 3
        let body := (lines.drop (i + 1)).takeWhile (fun l => !isFence l)
        (.code language (List.intercalate ['\n'] body), i + 1 + body.length + 1)
      else if isQuote line then
        let qs := (lines.drop i).takeWhile isQuote
        (.blockquote
          (List.intercalate [' '] (qs.map (fun l => pyStrip ((pyStrip l).drop 1)))),
          i + qs.length)
      else if (bulletItem line).isSome then
        let bs := (lines.drop i).takeWhile (fun l => (bulletItem l).isSome)
        (.bulletList (bs.map (fun l => (bulletItem l).getD [])), i + bs.length)
      else if (numberedItem line).isSome then
        let ns := (lines.drop i).takeWhile (fun l => (numberedItem l).isSome)
        (.numberedList (ns.map (fun l => (numberedItem l).getD [])), i + ns.length)
      else
        let ps := (lines.drop (i + 1)).takeWhile paraCont
        (.paragraph (List.intercalate [' '] (line :: ps)), i + 1 + ps.length)

/-- The `while i < len(lines)` loop, fuelled.  Every iteration advances `i`
by at least one, so `fuel := lines.length` is always sufficient; `none`
stands for fuel exhaustion and is proved unreachable. -/
def mdLoop (lines : List (List Char)) : Nat → Nat → Option (List MDElement)
  | 0, i => if lines.length ≤ i then some [] else none
  | fuel + 1, i =>
    if lines.length ≤ i then some []
    else
      let step := mdStep lines i
      (mdLoop lines fuel step.2).map (fun es => step.1 :: es)

/-- `parse_markdown_content(content)`: split into lines and run the loop. -/
def parse_markdown_content (content : List Char) : Option (List MDElement) :=
  let lines := content.splitOn '\n'
  mdLoop lines lines.length 0

/-! ## Lemmas about the substring searches -/

theorem findSub_none {n : List Char} (hn : n ≠ []) :
    ∀ {h : List Char}, findSub n h = none → ∀ k, ¬ n <+: h.drop k := by
  intro h
  induction h with
  | nil =>
    intro _ k hk
    rw [List.drop_nil] at hk
    exact hn (List.prefix_nil.mp hk)
  | cons c t ih =>
    intro heq k
    cases hp : n.isPrefixOf (c :: t) with
    | true => simp [findSub, hp] at heq
    | false =>
      have ht : findSub n t = none := by
        simp only [findSub, hp] at heq
        simpa using heq
      match k with
      | 0 =>
        intro hc
        rw [List.drop_zero] at hc
        have hpt := List.isPrefixOf_iff_prefix.mpr hc
        rw [hp] at hpt
        exact absurd hpt (by decide)
      | k + 1 =>
        rw [List.drop_succ_cons]
        exact ih ht k

theorem findSub_some {n : List Char} (hn : n ≠ []) :
    ∀ {h : List Char} {j : Nat}, findSub n h = some j →
      n <+: h.drop j ∧ ∀ k, k < j → ¬ n <+: h.drop k := by
  intro h
  induction h with
  | nil =>
    intro j heq
    have : ¬ n.isEmpty := by simpa [List.isEmpty_iff] using hn
    simp [findSub, this] at heq
  | cons c t ih =>
    intro j heq
    cases hp : n.isPrefixOf (c :: t) with
    | true =>
      have hj : j = 0 := by
        simp only [findSub, hp] at heq
        simpa using heq.symm
      subst hj
      exact ⟨List.isPrefixOf_iff_prefix.mp hp,
        fun k hk => absurd hk (Nat.not_lt_zero k)⟩
    | false =>
      have hmap : (findSub n t).map (· + 1) = some j := by
        simp only [findSub, hp] at heq
        simpa using heq
      rw [Option.map_eq_some'] at hmap
      obtain ⟨j', hj', rfl⟩ := hmap
      obtain ⟨hocc, hmin⟩ := ih hj'
      refine ⟨by rwa [List.drop_succ_cons], ?_⟩
      intro k hk
      match k with
      | 0 =>
        intro hc
        rw [List.drop_zero] at hc
        have hpt := List.isPrefixOf_iff_prefix.mpr hc
        rw [hp] at hpt
        exact absurd hpt (by decide)
      | k + 1 =>
        rw [List.drop_succ_cons]
        exact hmin k (by omega)

theorem rfindSub_none {n : List Char} (hn : n ≠ []) :
    ∀ {h : List Char}, rfindSub n h = none → ∀ k, ¬ n <+: h.drop k := by
  intro h
  induction h with
  | nil =>
    intro _ k hk
    rw [List.drop_nil] at hk
    exact hn (List.prefix_nil.mp hk)
  | cons c t ih =>
    intro heq k
    cases hr : rfindSub n t with
    | some j => simp [rfindSub, hr] at heq
    | none =>
      cases hp : n.isPrefixOf (c :: t) with
      | true => simp [rfindSub, hr, hp] at heq
      | false =>
        match k with
        | 0 =>
          intro hc
          rw [List.drop_zero] at hc
          have hpt := List.isPrefixOf_iff_prefix.mpr hc
          rw [hp] at hpt
          exact absurd hpt (by decide)
        | k + 1 =>
          rw [List.drop_succ_cons]
          exact ih hr k

theorem rfindSub_some {n : List Char} (hn : n ≠ []) :
    ∀ {h : List Char} {j : Nat}, rfindSub n h = some j →
      n <+: h.drop j ∧ ∀ k, j < k → ¬ n <+: h.drop k := by
  intro h
  induction h with
  | nil =>
    intro j heq
    have : ¬ n.isEmpty := by simpa [List.isEmpty_iff] using hn
    simp [rfindSub, this] at heq
  | cons c t ih =>
    intro j heq
    cases hr : rfindSub n t with
    | some j' =>
      have hj : j = j' + 1 := by
        simp only [rfindSub, hr] at heq
        simpa using heq.symm
      subst hj
      obtain ⟨hocc, hmax⟩ := ih hr
      refine ⟨by rwa [List.drop_succ_cons], ?_⟩
      intro k hk
      match k with
      | 0 => omega
      | k + 1 =>
        rw [List.drop_succ_cons]
        exact hmax k (by omega)
    | none =>
      cases hp : n.isPrefixOf (c :: t) with
      | true =>
        have hj : j = 0 := by
          simp only [rfindSub, hr, hp] at heq
          simpa using heq.symm
        subst hj
        refine ⟨List.isPrefixOf_iff_prefix.mp hp, ?_⟩
        intro k hk
        match k with
        | 0 => omega
        | k + 1 =>
          rw [List.drop_succ_cons]
          exact rfindSub_none hn hr k
      | false => simp [rfindSub, hr, hp] at heq

/-! ## Lemmas about `truncate_content_smart` -/

theorem TRUNC_MARKER_length : TRUNC_MARKER.length = 67 := rfl

theorem truncHead_eq (c : List Char) (b : Nat) :
    (∃ j, rfindSub PAGE_MARKER (c.take (6 * b / 10)) = some j ∧
      10 * j > 8 * (6 * b / 10) ∧ truncHead c b = (c.take (6 * b / 10)).take j) ∨
    (∃ j, rfindSub PAGE_MARKER (c.take (6 * b / 10)) = some j ∧
      ¬ 10 * j > 8 * (6 * b / 10) ∧ truncHead c b = c.take (6 * b / 10)) ∨
    (rfindSub PAGE_MARKER (c.take (6 * b / 10)) = none ∧
      truncHead c b = c.take (6 * b / 10)) := by
  simp only [truncHead]
  split
  case h_1 j heq =>
    split
    case isTrue hc => exact Or.inl ⟨j, heq, hc, rfl⟩
    case isFalse hc => exact Or.inr (Or.inl ⟨j, heq, hc, rfl⟩)
  case h_2 heq => exact Or.inr (Or.inr ⟨heq, rfl⟩)

theorem truncTail_eq (c : List Char) (b : Nat) :
    (∃ j, findSub PAGE_MARKER (pyTakeLast c (4 * b / 10)) = some j ∧
      10 * j < 2 * (4 * b / 10) ∧
      truncTail c b = (pyTakeLast c (4 * b / 10)).drop j) ∨
    (∃ j, findSub PAGE_MARKER (pyTakeLast c (4 * b / 10)) = some j ∧
      ¬ 10 * j < 2 * (4 * b / 10) ∧ truncTail c b = pyTakeLast c (4 * b / 10)) ∨
    (findSub PAGE_MARKER (pyTakeLast c (4 * b / 10)) = none ∧
      truncTail c b = pyTakeLast c (4 * b / 10)) := by
  simp only [truncTail]
  split
  case h_1 j heq =>
    split
    case isTrue hc => exact Or.inl ⟨j, heq, hc, rfl⟩
    case isFalse hc => exact Or.inr (Or.inl ⟨j, heq, hc, rfl⟩)
  case h_2 heq => exact Or.inr (Or.inr ⟨heq, rfl⟩)

theorem truncHead_prefix_self (c : List Char) (b : Nat) : truncHead c b <+: c := by
  rcases truncHead_eq c b with ⟨j, _, _, hh⟩ | ⟨j, _, _, hh⟩ | ⟨_, hh⟩ <;> rw [hh]
  · exact (List.take_prefix _ _).trans (List.take_prefix _ c)
  · exact List.take_prefix _ c
  · exact List.take_prefix _ c

theorem truncHead_length (c : List Char) (b : Nat) :
    (truncHead c b).length ≤ 6 * b / 10 := by
  rcases truncHead_eq c b with ⟨j, _, _, hh⟩ | ⟨j, _, _, hh⟩ | ⟨_, hh⟩ <;>
    rw [hh] <;> simp only [List.length_take] <;> omega

theorem pyTakeLast_suffix (c : List Char) (k : Nat) : pyTakeLast c k <:+ c := by
  unfold pyTakeLast
  split
  · exact List.suffix_refl c
  · exact List.drop_suffix _ c

theorem pyTakeLast_length (c : List Char) {k : Nat} (hk : k ≠ 0) :
    (pyTakeLast c k).length ≤ k := by
  unfold pyTakeLast
  rw [if_neg hk, List.length_drop]
  omega

theorem truncTail_suffix (c : List Char) (b : Nat) : truncTail c b <:+ c := by
  rcases truncTail_eq c b with ⟨j, _, _, hh⟩ | ⟨j, _, _, hh⟩ | ⟨_, hh⟩ <;> rw [hh]
  · exact (List.drop_suffix _ _).trans (pyTakeLast_suffix c _)
  · exact pyTakeLast_suffix c _
  · exact pyTakeLast_suffix c _

theorem truncTail_length (c : List Char) (b : Nat) (hec : 4 * b / 10 ≠ 0) :
    (truncTail c b).length ≤ 4 * b / 10 := by
  have hbase := pyTakeLast_length c hec
  rcases truncTail_eq c b with ⟨j, _, _, hh⟩ | ⟨j, _, _, hh⟩ | ⟨_, hh⟩ <;> rw [hh]
  · rw [List.length_drop]
    omega
  · exact hbase
  · exact hbase

theorem truncate_eq_of_le {c : List Char} {b : Nat} (h : c.length ≤ b) :
    truncate_content_smart c b = (c, ⟨false, c.length, c.length, 100⟩) := by
  simp [truncate_content_smart, h]

theorem truncate_fst_of_lt {c : List Char} {b : Nat} (h : b < c.length) :
    (truncate_content_smart c b).1 =
      truncHead c b ++ TRUNC_MARKER ++ truncTail c b := by
  simp [truncate_content_smart, Nat.not_le.mpr h]

theorem truncate_was_of_lt {c : List Char} {b : Nat} (h : b < c.length) :
    (truncate_content_smart c b).2.was_truncated = true := by
  simp [truncate_content_smart, Nat.not_le.mpr h]

theorem truncate_final_chars (c : List Char) (b : Nat) :
    (truncate_content_smart c b).2.final_chars =
      (truncate_content_smart c b).1.length := by
  unfold truncate_content_smart
  split <;> rfl

theorem truncHead_headSpec (c : List Char) (b : Nat) :
    HeadSpec c b (truncHead c b) := by
  have hpm : PAGE_MARKER ≠ [] := by decide
  unfold HeadSpec
  dsimp only
  rcases truncHead_eq c b with ⟨j, hr, hc, hh⟩ | ⟨j, hr, hc, hh⟩ | ⟨hr, hh⟩
  · obtain ⟨hocc, hmax⟩ := rfindSub_some hpm hr
    exact Or.inl ⟨j, hocc, hc, hmax, hh⟩
  · obtain ⟨hocc, hmax⟩ := rfindSub_some hpm hr
    refine Or.inr ⟨?_, hh⟩
    intro j' hgt hocc'
    have hje : j' ≤ j := by
      by_contra hlt
      exact hmax j' (by omega) hocc'
    omega
  · exact Or.inr ⟨fun j _ => rfindSub_none hpm hr j, hh⟩

theorem truncTail_tailSpec (c : List Char) (b : Nat) :
    TailSpec c b (truncTail c b) := by
  have hpm : PAGE_MARKER ≠ [] := by decide
  unfold TailSpec
  dsimp only
  rcases truncTail_eq c b with ⟨j, hr, hc, hh⟩ | ⟨j, hr, hc, hh⟩ | ⟨hr, hh⟩
  · obtain ⟨hocc, hmin⟩ := findSub_some hpm hr
    exact Or.inl ⟨j, hocc, hc, hmin, hh⟩
  · obtain ⟨hocc, hmin⟩ := findSub_some hpm hr
    refine Or.inr ⟨?_, hh⟩
    intro j' hlt hocc'
    have hje : j ≤ j' := by
      by_contra hgt
      exact hmin j' (by omega) hocc'
    omega
  · exact Or.inr ⟨fun j _ => findSub_none hpm hr j, hh⟩

theorem prefix_suffix_decomp {c h t : List Char} (hp : h <+: c) (hs : t <:+ c)
    (hle : h.length + t.length ≤ c.length) :
    ∃ mid, c = h ++ mid ++ t ∧ mid.length = c.length - h.length - t.length := by
  have hh : h = c.take h.length := List.prefix_iff_eq_take.mp hp
  have ht : t = c.drop (c.length - t.length) := List.suffix_iff_eq_drop.mp hs
  have htl : t.length ≤ c.length := hs.length_le
  refine ⟨(c.drop h.length).take (c.length - h.length - t.length), ?_, ?_⟩
  · have h3 : (c.drop h.length).drop (c.length - h.length - t.length) =
        c.drop (c.length - t.length) := by
      rw [List.drop_drop]
      congr 1
      omega
    calc c = c.take h.length ++ c.drop h.length :=
            (List.take_append_drop _ c).symm
    _ = c.take h.length ++
          ((c.drop h.length).take (c.length - h.length - t.length) ++
            (c.drop h.length).drop (c.length - h.length - t.length)) := by
          rw [List.take_append_drop, List.take_append_drop, List.take_append_drop]
    _ = h ++ ((c.drop h.length).take (c.length - h.length - t.length) ++ t) := by
          rw [← hh, h3, ← ht]
    _ = h ++ (c.drop h.length).take (c.length - h.length - t.length) ++ t := by
          rw [List.append_assoc]
  · rw [List.length_take, List.length_drop]
    omega

/-! ## Claim C1 -/

/-- C1 counterexample: for the 11-character text `"abcdefghijk"` and budget
10 the text is truncated, yet `final_chars` (77, the 67-character marker
plus 10 kept characters) exceeds `original_chars` (11), refuting the claimed
invariant `final_chars <= original_chars`. -/
theorem c1_final_chars_counterexample :
    10 < ("abcdefghijk".toList).length ∧
    (truncate_content_smart "abcdefghijk".toList 10).2.was_truncated = true ∧
    ¬ ((truncate_content_smart "abcdefghijk".toList 10).2.final_chars ≤
        (truncate_content_smart "abcdefghijk".toList 10).2.original_chars) := by
  refine ⟨by decide, truncate_was_of_lt (by decide), ?_⟩
  rw [truncate_final_chars, truncate_fst_of_lt (by decide)]
  decide

/-- C1 (amended): if the text's length is at most the budget, the text is
returned unchanged with `was_truncated = false` (including the exact
boundary); otherwise `was_truncated = true` and the returned text is
`head ++ MARKER ++ tail` for a head segment that is a prefix of the input
and a tail segment that is a suffix of the input, with
`final_chars = len head + len MARKER + len tail` (which may exceed
`original_chars` for inputs barely over the budget). -/
theorem c1_truncation_invariant_amended (c : List Char) (b : Nat) :
    (c.length ≤ b →
      truncate_content_smart c b = (c, ⟨false, c.length, c.length, 100⟩)) ∧
    (b < c.length →
      (truncate_content_smart c b).2.was_truncated = true ∧
      ∃ head tail, head <+: c ∧ tail <:+ c ∧
        (truncate_content_smart c b).1 = head ++ TRUNC_MARKER ++ tail ∧
        (truncate_content_smart c b).2.final_chars =
          head.length + TRUNC_MARKER.length + tail.length) := by
  constructor
  · intro h
    exact truncate_eq_of_le h
  · intro h
    refine ⟨truncate_was_of_lt h, truncHead c b, truncTail c b,
      truncHead_prefix_self c b, truncTail_suffix c b, truncate_fst_of_lt h, ?_⟩
    rw [truncate_final_chars, truncate_fst_of_lt h]
    simp [List.length_append]
    omega

/-- Witness for C1 (amended) at concrete inputs: a short text is returned
unchanged, and a long text is split around the marker. -/
theorem c1_truncation_invariant_amended_witness :
    truncate_content_smart "abc".toList 5 =
      ("abc".toList, ⟨false, 3, 3, 100⟩) ∧
    ((truncate_content_smart "abcdefghijkl".toList 10).2.was_truncated = true ∧
      ∃ head tail, head <+: "abcdefghijkl".toList ∧
        tail <:+ "abcdefghijkl".toList ∧
        (truncate_content_smart "abcdefghijkl".toList 10).1 =
          head ++ TRUNC_MARKER ++ tail ∧
        (truncate_content_smart "abcdefghijkl".toList 10).2.final_chars =
          head.length + TRUNC_MARKER.length + tail.length) :=
  ⟨(c1_truncation_invariant_amended "abc".toList 5).1 (by decide),
   (c1_truncation_invariant_amended "abcdefghijkl".toList 10).2 (by decide)⟩

/-! ## Claim C2 -/

/-- C2: for every text longer than the budget the returned text is
`head ++ MARKER ++ tail`, where `head` satisfies the specified head-window
trimming (`HeadSpec`) and `tail` the specified tail-window trimming
(`TailSpec`); `head` is a prefix and `tail` a suffix of the original, and
(for budgets of at least 3, where the head and tail windows cannot overlap)
the text decomposes as `head ++ middle ++ tail` with a non-empty discarded
middle that is replaced by the marker.  The second conjunct exhibits the
discarded-middle property concretely: no character of the `zzzzzzzz` middle
segment of the synthetic text survives in the output. -/
theorem c2_head_tail_split :
    (∀ (c : List Char) (b : Nat), b < c.length →
      ∃ head tail,
        (truncate_content_smart c b).1 = head ++ TRUNC_MARKER ++ tail ∧
        HeadSpec c b head ∧ TailSpec c b tail ∧ head <+: c ∧ tail <:+ c ∧
        (3 ≤ b → ∃ mid, c = head ++ mid ++ tail ∧ mid ≠ [])) ∧
    (∀ ch ∈ (truncate_content_smart SYNTH_TEXT 10).1, ch ≠ 'z') := by
  constructor
  · intro c b h
    refine ⟨truncHead c b, truncTail c b, truncate_fst_of_lt h,
      truncHead_headSpec c b, truncTail_tailSpec c b,
      truncHead_prefix_self c b, truncTail_suffix c b, ?_⟩
    intro h3
    have hec : 4 * b / 10 ≠ 0 := by omega
    have hl1 := truncHead_length c b
    have hl2 := truncTail_length c b hec
    have hsum : (truncHead c b).length + (truncTail c b).length ≤ c.length := by
      omega
    obtain ⟨mid, hmid, hlen⟩ :=
      prefix_suffix_decomp (truncHead_prefix_self c b) (truncTail_suffix c b) hsum
    refine ⟨mid, hmid, ?_⟩
    have : 0 < mid.length := by omega
    exact List.ne_nil_of_length_pos this
  · rw [truncate_fst_of_lt (by decide)]
    decide

/-- Witness for C2 at a concrete truncated input. -/
theorem c2_head_tail_split_witness :
    ∃ head tail,
      (truncate_content_smart "abcdefghijklmnopqrst".toList 10).1 =
        head ++ TRUNC_MARKER ++ tail ∧
      HeadSpec "abcdefghijklmnopqrst".toList 10 head ∧
      TailSpec "abcdefghijklmnopqrst".toList 10 tail ∧
      head <+: "abcdefghijklmnopqrst".toList ∧
      tail <:+ "abcdefghijklmnopqrst".toList ∧
      (3 ≤ 10 → ∃ mid, "abcdefghijklmnopqrst".toList = head ++ mid ++ tail ∧
        mid ≠ []) :=
  c2_head_tail_split.1 "abcdefghijklmnopqrst".toList 10 (by decide)

/-! ## Claim C3 -/

/-- C3: truncation is idempotent — when the first application's
`final_chars` is at most the budget, the second application with the same
budget returns its input unchanged with `was_truncated = false`. -/
theorem c3_truncation_idempotent (c : List Char) (b : Nat)
    (h : (truncate_content_smart c b).2.final_chars ≤ b) :
    truncate_content_smart (truncate_content_smart c b).1 b =
      ((truncate_content_smart c b).1,
        ⟨false, (truncate_content_smart c b).1.length,
          (truncate_content_smart c b).1.length, 100⟩) ∧
    (truncate_content_smart (truncate_content_smart c b).1 b).2.was_truncated
      = false := by
  rw [truncate_final_chars] at h
  refine ⟨truncate_eq_of_le h, ?_⟩
  rw [truncate_eq_of_le h]

/-- Witness for C3 at a concrete input whose result fits the budget. -/
theorem c3_truncation_idempotent_witness :
    truncate_content_smart (truncate_content_smart "ab".toList 5).1 5 =
      ((truncate_content_smart "ab".toList 5).1,
        ⟨false, (truncate_content_smart "ab".toList 5).1.length,
          (truncate_content_smart "ab".toList 5).1.length, 100⟩) ∧
    (truncate_content_smart (truncate_content_smart "ab".toList 5).1 5).2.was_truncated
      = false :=
  c3_truncation_idempotent "ab".toList 5 (by decide)

/-! ## Claim C9 -/

/-- C9: for budgets of at least 3 and texts longer than the budget, the
returned text has at most `int(0.6*budget) + int(0.4*budget)` kept
characters plus the 67-character marker, hence at most `budget + 67`
characters in total; page-marker trimming only shortens the windows. -/
theorem c9_output_size_bound (c : List Char) (b : Nat) (h3 : 3 ≤ b)
    (h : b < c.length) :
    TRUNC_MARKER.length = 67 ∧
    (truncate_content_smart c b).2.final_chars ≤
      6 * b / 10 + 4 * b / 10 + 67 ∧
    (truncate_content_smart c b).2.final_chars ≤ b + 67 := by
  have hec : 4 * b / 10 ≠ 0 := by omega
  have hl1 := truncHead_length c b
  have hl2 := truncTail_length c b hec
  have hfc : (truncate_content_smart c b).2.final_chars =
      (truncHead c b).length + 67 + (truncTail c b).length := by
    rw [truncate_final_chars, truncate_fst_of_lt h]
    simp [List.length_append, TRUNC_MARKER_length]
    omega
  rw [hfc]
  refine ⟨rfl, by omega, by omega⟩

/-- Witness for C9 at a concrete input. -/
theorem c9_output_size_bound_witness :
    TRUNC_MARKER.length = 67 ∧
    (truncate_content_smart "abcdefghijklmno".toList 10).2.final_chars ≤
      6 * 10 / 10 + 4 * 10 / 10 + 67 ∧
    (truncate_content_smart "abcdefghijklmno".toList 10).2.final_chars ≤
      10 + 67 :=
  c9_output_size_bound "abcdefghijklmno".toList 10 (by decide) (by decide)

/-! ## Claim C5 -/

/-- C5: every data row produced by `parse_table` has exactly as many cells
as the header row (short rows padded with empty cells, long rows trimmed);
concretely, for the header `|A|B|C|` with a 2-cell and a 4-cell data row the
headers are `["A","B","C"]` and both rows have length 3, padded/trimmed. -/
theorem c5_table_row_shape :
    (∀ (tls : List (List Char)) (row : List (List Char)),
      row ∈ (parse_table tls).rows →
      row.length = (parse_table tls).headers.length) ∧
    parse_table ["|A|B|C|".toList, "|---|---|---|".toList, "|x|y|".toList,
        "|p|q|r|s|".toList] =
      ⟨["A".toList, "B".toList, "C".toList],
        [["x".toList, "y".toList, []],
         ["p".toList, "q".toList, "r".toList]]⟩ := by
  constructor
  · intro tls row hrow
    by_cases hlen : tls.length < 2
    · simp [parse_table, hlen] at hrow
    · simp only [parse_table, hlen, if_false] at hrow ⊢
      rw [List.mem_map] at hrow
      obtain ⟨line, _, rfl⟩ := hrow
      rw [List.length_take, List.length_append, List.length_replicate]
      omega
  · decide

/-- Witness for C5 at the concrete padded row of the example table. -/
theorem c5_table_row_shape_witness :
    (["x".toList, "y".toList, ([] : List Char)]).length =
      (parse_table ["|A|B|C|".toList, "|---|---|---|".toList, "|x|y|".toList,
        "|p|q|r|s|".toList]).headers.length :=
  c5_table_row_shape.1
    ["|A|B|C|".toList, "|---|---|---|".toList, "|x|y|".toList,
      "|p|q|r|s|".toList]
    ["x".toList, "y".toList, []] (by decide)

/-! ## Claim C6: helper lemmas -/

theorem generic_msg_getElem3 (x : List Char) :
    (UNREADABLE_PREFIX ++ x ++ UNREADABLE_SUFFIX)[3]? = some 'C' := by
  rw [List.append_assoc,
    List.getElem?_append_left (by decide : 3 < UNREADABLE_PREFIX.length)]
  decide

theorem msg_of_password {e : List Char}
    (h : classify_extraction_error e = ExtractErrorClass.passwordProtected) :
    extraction_error_message e = PASSWORD_MSG := by
  simp [extraction_error_message, h]

theorem msg_of_corrupted {e : List Char}
    (h : classify_extraction_error e = ExtractErrorClass.corrupted) :
    extraction_error_message e = CORRUPTED_MSG := by
  simp [extraction_error_message, h]

theorem msg_of_unreadable {e : List Char}
    (h : classify_extraction_error e = ExtractErrorClass.unreadable) :
    extraction_error_message e = UNREADABLE_PREFIX ++ e ++ UNREADABLE_SUFFIX := by
  simp [extraction_error_message, h]

/-! ## Claim C6 -/

/-- C6 counterexample: the claim requires a distinct `Unreadable` class next
to a distinct generic `ExtractionFailed` for all other I/O errors, but the
code has a single catch-all branch: an unreadable-document error and an
unrelated I/O error are classified identically (both fall into the one
generic branch), so no fourth, distinguishable outcome exists. -/
theorem c6_error_classes_counterexample :
    classify_extraction_error "no root object - is this really a pdf?".toList
      = ExtractErrorClass.unreadable ∧
    classify_extraction_error "timed out while reading the file".toList
      = ExtractErrorClass.unreadable ∧
    classify_extraction_error "no root object - is this really a pdf?".toList
      = classify_extraction_error "timed out while reading the file".toList := by
  decide

/-- C6 (amended): the handler distinguishes exactly two specific classes —
password-protected (error text containing "password" or "encrypted") and
corrupted ("corrupt" or "damaged") — each with its own fixed remediation
message; every other failure, unreadable files included, surfaces through
the single generic "Could not read PDF file" message embedding the original
error text.  Messages of distinct classes are always distinct, so the three
classes that do exist are caller-distinguishable. -/
theorem c6_error_classes_amended (e : List Char) :
    ((containsSub "password".toList (pyLower e) ||
        containsSub "encrypted".toList (pyLower e)) = true →
      classify_extraction_error e = ExtractErrorClass.passwordProtected ∧
      extraction_error_message e = PASSWORD_MSG) ∧
    ((containsSub "password".toList (pyLower e) ||
        containsSub "encrypted".toList (pyLower e)) = false →
      (containsSub "corrupt".toList (pyLower e) ||
        containsSub "damaged".toList (pyLower e)) = true →
      classify_extraction_error e = ExtractErrorClass.corrupted ∧
      extraction_error_message e = CORRUPTED_MSG) ∧
    ((containsSub "password".toList (pyLower e) ||
        containsSub "encrypted".toList (pyLower e)) = false →
      (containsSub "corrupt".toList (pyLower e) ||
        containsSub "damaged".toList (pyLower e)) = false →
      classify_extraction_error e = ExtractErrorClass.unreadable ∧
      extraction_error_message e = UNREADABLE_PREFIX ++ e ++ UNREADABLE_SUFFIX) ∧
    (∀ e2 : List Char,
      classify_extraction_error e ≠ classify_extraction_error e2 →
      extraction_error_message e ≠ extraction_error_message e2) := by
  refine ⟨?_, ?_, ?_, ?_⟩
  · intro h1
    have hcls : classify_extraction_error e =
        ExtractErrorClass.passwordProtected := by
      simp only [classify_extraction_error]
      rw [if_pos h1]
    exact ⟨hcls, msg_of_password hcls⟩
  · intro h1 h2
    have hcls : classify_extraction_error e = ExtractErrorClass.corrupted := by
      simp only [classify_extraction_error]
      rw [if_neg (by simpa using h1), if_pos h2]
    exact ⟨hcls, msg_of_corrupted hcls⟩
  · intro h1 h2
    have hcls : classify_extraction_error e = ExtractErrorClass.unreadable := by
      simp only [classify_extraction_error]
      rw [if_neg (by simpa using h1), if_neg (by simpa using h2)]
    exact ⟨hcls, msg_of_unreadable hcls⟩
  · intro e2 hne hmsg
    cases h1 : classify_extraction_error e with
    | passwordProtected =>
      rw [msg_of_password h1] at hmsg
      cases h2 : classify_extraction_error e2 with
      | passwordProtected => exact hne (h1.trans h2.symm)
      | corrupted =>
        rw [msg_of_corrupted h2] at hmsg
        exact absurd hmsg (by decide)
      | unreadable =>
        rw [msg_of_unreadable h2] at hmsg
        have h3 := congrArg (fun l => l[3]?) hmsg
        simp only [generic_msg_getElem3] at h3
        exact absurd h3 (by decide)
    | corrupted =>
      rw [msg_of_corrupted h1] at hmsg
      cases h2 : classify_extraction_error e2 with
      | passwordProtected =>
        rw [msg_of_password h2] at hmsg
        exact absurd hmsg (by decide)
      | corrupted => exact hne (h1.trans h2.symm)
      | unreadable =>
        rw [msg_of_unreadable h2] at hmsg
        have h3 := congrArg (fun l => l[3]?) hmsg
        simp only [generic_msg_getElem3] at h3
        exact absurd h3 (by decide)
    | unreadable =>
      rw [msg_of_unreadable h1] at hmsg
      cases h2 : classify_extraction_error e2 with
      | passwordProtected =>
        rw [msg_of_password h2] at hmsg
        have h3 := congrArg (fun l => l[3]?) hmsg
        simp only [generic_msg_getElem3] at h3
        exact absurd h3.symm (by decide)
      | corrupted =>
        rw [msg_of_corrupted h2] at hmsg
        have h3 := congrArg (fun l => l[3]?) hmsg
        simp only [generic_msg_getElem3] at h3
        exact absurd h3.symm (by decide)
      | unreadable => exact hne (h1.trans h2.symm)

/-- Witness for C6 (amended) at concrete error texts of the three classes. -/
theorem c6_error_classes_amended_witness :
    (classify_extraction_error "file is encrypted".toList =
        ExtractErrorClass.passwordProtected ∧
      extraction_error_message "file is encrypted".toList = PASSWORD_MSG) ∧
    (classify_extraction_error "header damaged".toList =
        ExtractErrorClass.corrupted ∧
      extraction_error_message "header damaged".toList = CORRUPTED_MSG) ∧
    (classify_extraction_error "bad xref".toList =
        ExtractErrorClass.unreadable ∧
      extraction_error_message "bad xref".toList =
        UNREADABLE_PREFIX ++ "bad xref".toList ++ UNREADABLE_SUFFIX) ∧
    extraction_error_message "file is encrypted".toList ≠
      extraction_error_message "bad xref".toList :=
  ⟨(c6_error_classes_amended "file is encrypted".toList).1 (by decide),
   (c6_error_classes_amended "header damaged".toList).2.1 (by decide) (by decide),
   (c6_error_classes_amended "bad xref".toList).2.2.1 (by decide) (by decide),
   (c6_error_classes_amended "file is encrypted".toList).2.2.2
     "bad xref".toList (by decide)⟩

/-! ## Claim C7 -/

/-- C7 counterexample: a single page with the 3-character text `"abc"` makes
the sampled text non-empty, so `has_text` is set to true even though the
sampled text has far fewer than 100 characters — the claimed 100-character
threshold does not exist in the code. -/
theorem c7_has_text_counterexample :
    (get_pdf_info [['a', 'b', 'c']]).has_text = true ∧
    (sampleText [['a', 'b', 'c']]).length ≤ 100 := by
  decide

/-- C7 (amended): `has_text` is true exactly when the text sampled from the
first pages is non-empty — the effective threshold is one character, not
100. -/
theorem c7_has_text_amended (pages : List (List Char)) :
    (get_pdf_info pages).has_text = !(sampleText pages).isEmpty := by
  cases h : (sampleText pages).isEmpty <;> simp [get_pdf_info, h]

/-! ## Claim C8 -/

set_option maxRecDepth 100000 in
/-- C8 counterexample: the 20-page PDF `PAGES_RAW` has exactly 100 words on
each of its first 10 pages, but `sample_text` concatenates the page texts
with no separator, so the last word of each sampled page merges with the
first word of the next: the sample counts 991 words, and
`estimated_words = 991 * 20 / 10 = 1982`, not the claimed 2000. -/
theorem c8_sampling_counterexample :
    PAGES_RAW.length = 20 ∧
    (∀ p ∈ PAGES_RAW.take 10, (pyWords p).length = 100) ∧
    (get_pdf_info PAGES_RAW).estimated_words = 1982 ∧
    (1982 : Nat) ≠ 2000 := by
  decide

set_option maxRecDepth 100000 in
/-- C8 (amended): the estimates are a sampled extrapolation depending only
on the page count and the first 10 pages (sampling locality), and the
claimed `100 * 20 = 2000` instance holds once the sampled pages' texts end
in whitespace, so that words do not merge across the separator-less
concatenation of page texts. -/
theorem c8_sampling_amended :
    (∀ (p q : List (List Char)), p.length = q.length →
      p.take 10 = q.take 10 → get_pdf_info p = get_pdf_info q) ∧
    PAGES_NL.length = 20 ∧
    (∀ pg ∈ PAGES_NL.take 10, (pyWords pg).length = 100) ∧
    (get_pdf_info PAGES_NL).estimated_words = 2000 := by
  refine ⟨?_, by decide, by decide, by decide⟩
  intro p q hlen htake
  have hk : ∀ k, k ≤ 10 → p.take k = q.take k := by
    intro k hk10
    have h := congrArg (List.take k) htake
    simp only [List.take_take, min_eq_left hk10] at h
    exact h
  have hs : sampleText p = sampleText q := by
    unfold sampleText
    rw [hlen, hk (min 10 q.length) (min_le_left _ _)]
  unfold get_pdf_info
  rw [hlen, hs]

set_option maxRecDepth 100000 in
/-- Witness for C8 (amended): two 20-page PDFs agreeing on the sampled
pages but differing on pages 11-20 get identical metadata. -/
theorem c8_sampling_amended_witness :
    get_pdf_info PAGES_NL = get_pdf_info PAGES_NL_ALT :=
  c8_sampling_amended.1 PAGES_NL PAGES_NL_ALT (by decide) (by decide)

/-! ## Claim C10 -/

theorem drop_eq_getD_cons :
    ∀ (l : List (List Char)) (i : Nat), i < l.length →
      l.drop i = l.getD i [] :: l.drop (i + 1) := by
  intro l
  induction l with
  | nil => intro i hi; simp at hi
  | cons x t ih =>
    intro i hi
    match i with
    | 0 => rfl
    | k + 1 =>
      rw [List.drop_succ_cons, ih k (by simpa using hi)]
      rfl

/-- Every branch of the parsing loop advances the line index by at least
one. -/
theorem mdStep_advance (lines : List (List Char)) (i : Nat)
    (hi : i < lines.length) : i + 1 ≤ (mdStep lines i).2 := by
  have hdrop := drop_eq_getD_cons lines i hi
  simp only [mdStep]
  split
  · simp
  · split
    · simp
    · split
      · simp
      · split
        · simp
          omega
        · split
          case isTrue h4 =>
            rw [hdrop, List.takeWhile_cons_of_pos h4]
            simp
          case isFalse h4 =>
            split
            case isTrue h5 =>
              have h7 : List.takeWhile (fun l => (bulletItem l).isSome)
                  (lines.getD i [] :: lines.drop (i + 1)) =
                  lines.getD i [] ::
                    List.takeWhile (fun l => (bulletItem l).isSome)
                      (lines.drop (i + 1)) :=
                List.takeWhile_cons_of_pos h5
              rw [hdrop, h7]
              simp
            case isFalse h5 =>
              split
              case isTrue h6 =>
                have h7 : List.takeWhile (fun l => (numberedItem l).isSome)
                    (lines.getD i [] :: lines.drop (i + 1)) =
                    lines.getD i [] ::
                      List.takeWhile (fun l => (numberedItem l).isSome)
                        (lines.drop (i + 1)) :=
                  List.takeWhile_cons_of_pos h6
                rw [hdrop, h7]
                simp
              case isFalse h6 => simp

/-- With fuel at least `lines.length - i`, the parsing loop completes. -/
theorem mdLoop_isSome (lines : List (List Char)) :
    ∀ (fuel i : Nat), lines.length ≤ i + fuel →
      (mdLoop lines fuel i).isSome = true := by
  intro fuel
  induction fuel with
  | zero =>
    intro i hi
    simp only [mdLoop]
    rw [if_pos (by omega)]
    rfl
  | succ fuel ih =>
    intro i hi
    simp only [mdLoop]
    by_cases hle : lines.length ≤ i
    · rw [if_pos hle]
      rfl
    · rw [if_neg hle]
      have hadv := mdStep_advance lines i (by omega)
      have hrec := ih (mdStep lines i).2 (by omega)
      obtain ⟨v, hv⟩ := Option.isSome_iff_exists.mp hrec
      rw [hv]
      rfl

/-- C10: `parse_markdown_content` terminates on every input — each branch
of the loop (empty line, heading, table, code fence, blockquote, bullet
list, numbered list, paragraph) strictly advances the line index
(`mdStep_advance`), so fuel equal to the number of lines always suffices
and the fuelled loop never returns `none`. -/
theorem c10_parser_terminates (content : List Char) :
    (parse_markdown_content content).isSome = true := by
  unfold parse_markdown_content
  exact mdLoop_isSome _ _ 0 (by omega)

/-! ## Claim C4: lemmas about the lazy regex search -/

theorem prefix_drop_decomp {P l : List Char} {n : Nat} (h : P <+: l.drop n) :
    l.drop n = P ++ l.drop (n + P.length) := by
  obtain ⟨t, ht⟩ := h
  have h2 : l.drop (n + P.length) = t := by
    rw [← List.drop_drop, ← ht, List.drop_left]
  rw [h2]
  exact ht.symm

theorem lazyGroup_sound {R : List Char} :
    ∀ {ys : List Char} {g : Nat}, lazyGroup R ys = some g →
      1 ≤ g ∧ g ≤ ys.length ∧ R <+: ys.drop g ∧ ∀ c ∈ ys.take g, c ≠ '\n' := by
  intro ys
  induction ys with
  | nil => intro g h; simp [lazyGroup] at h
  | cons c t ih =>
    intro g h
    cases hnl : (c == '\n') with
    | true => simp [lazyGroup, hnl] at h
    | false =>
      cases hp : R.isPrefixOf t with
      | true =>
        have hg : g = 1 := by
          simp [lazyGroup, hnl, hp] at h
          omega
        subst hg
        refine ⟨le_refl 1, by simp, ?_, ?_⟩
        · rw [List.drop_succ_cons, List.drop_zero]
          exact List.isPrefixOf_iff_prefix.mp hp
        · intro c2 hc2
          rw [List.take_succ_cons, List.take_zero] at hc2
          rcases List.mem_cons.mp hc2 with hc3 | hc3
          · subst hc3
            simpa using hnl
          · cases hc3
      | false =>
        have hmap : ∃ g', lazyGroup R t = some g' ∧ g' + 1 = g := by
          simp only [lazyGroup, hnl, hp, Bool.false_eq_true, if_false,
            Option.map_eq_some'] at h
          exact h
        obtain ⟨g', hg', rfl⟩ := hmap
        obtain ⟨ha, hb, hc, hd⟩ := ih hg'
        refine ⟨by omega, by simp; omega, ?_, ?_⟩
        · rwa [List.drop_succ_cons]
        · intro c2 hc2
          rw [List.take_succ_cons] at hc2
          rcases List.mem_cons.mp hc2 with hc3 | hc3
          · subst hc3
            simpa using hnl
          · exact hd c2 hc3

theorem lazyGroup_complete {R : List Char} :
    ∀ {ys : List Char} {g : Nat}, 1 ≤ g → g ≤ ys.length →
      R <+: ys.drop g → (∀ c ∈ ys.take g, c ≠ '\n') →
      ∃ g0, lazyGroup R ys = some g0 ∧ g0 ≤ g := by
  intro ys
  induction ys with
  | nil =>
    intro g h1 h2 _ _
    simp at h2
    omega
  | cons c t ih =>
    intro g h1 h2 h3 h4
    match g, h1 with
    | g' + 1, _ =>
      have hc : ¬ c = '\n' := by
        apply h4 c
        rw [List.take_succ_cons]
        exact List.mem_cons_self c _
      have hnl : (c == '\n') = false := by simp [hc]
      rw [List.drop_succ_cons] at h3
      cases hp : R.isPrefixOf t with
      | true => exact ⟨1, by simp [lazyGroup, hnl, hp], by omega⟩
      | false =>
        have hg' : 1 ≤ g' := by
          rcases Nat.eq_zero_or_pos g' with h0 | h0
          · subst h0
            rw [List.drop_zero] at h3
            have hpt := List.isPrefixOf_iff_prefix.mpr h3
            rw [hp] at hpt
            exact absurd hpt (by decide)
          · exact h0
        have h4' : ∀ c2 ∈ t.take g', c2 ≠ '\n' := by
          intro c2 hc2
          apply h4 c2
          rw [List.take_succ_cons]
          exact List.mem_cons_of_mem _ hc2
        obtain ⟨g0, hg0, hle⟩ := ih hg' (by simpa using h2) h3 h4'
        refine ⟨g0 + 1, ?_, by omega⟩
        simp [lazyGroup, hnl, hp, hg0]

theorem searchPat_sound {L R : List Char} :
    ∀ {xs : List Char} {s g : Nat}, searchPat L R xs = some (s, g) →
      MatchesAt L R xs s g := by
  intro xs
  induction xs with
  | nil => intro s g h; simp [searchPat] at h
  | cons x t ih =>
    intro s g h
    cases hm : (if L.isPrefixOf (x :: t) then
        lazyGroup R ((x :: t).drop L.length) else none) with
    | some g' =>
      have hsg : (0, g') = (s, g) := by
        simp only [searchPat, hm, Option.some.injEq] at h
        exact h
      rw [Prod.mk.injEq] at hsg
      obtain ⟨hs0, hg0⟩ := hsg
      subst hs0
      subst hg0
      cases hp : L.isPrefixOf (x :: t) with
      | false => simp [hp] at hm
      | true =>
        rw [if_pos hp] at hm
        have hL : L <+: (x :: t) := List.isPrefixOf_iff_prefix.mp hp
        obtain ⟨h1, h2, h3, h4⟩ := lazyGroup_sound hm
        have hLlen : L.length ≤ (x :: t).length := hL.length_le
        have hRlen := h3.length_le
        rw [List.length_drop, List.length_drop] at hRlen
        rw [List.length_drop] at h2
        refine ⟨by simpa using hL, h1, by omega, ?_, ?_⟩
        · intro c2 hc2
          apply h4 c2
          simpa using hc2
        · have he : ((x :: t).drop L.length).drop g' =
              (x :: t).drop (0 + L.length + g') := by
            rw [List.drop_drop]
            congr 1
            omega
          rwa [he] at h3
    | none =>
      have hmap : ∃ p : Nat × Nat, searchPat L R t = some p ∧
          (p.1 + 1, p.2) = (s, g) := by
        simp only [searchPat, hm, Option.map_eq_some'] at h
        exact h
      obtain ⟨⟨s', g'⟩, hsp, hp2⟩ := hmap
      rw [Prod.mk.injEq] at hp2
      obtain ⟨hs, hg⟩ := hp2
      subst hs
      subst hg
      obtain ⟨hL, h1, hb, hnl, hR⟩ := ih hsp
      have e1 : s' + 1 + L.length = (s' + L.length) + 1 := by omega
      have e2 : s' + 1 + L.length + g' = (s' + L.length + g') + 1 := by omega
      refine ⟨by rwa [List.drop_succ_cons], h1, by simp; omega, ?_, ?_⟩
      · intro c2 hc2
        apply hnl c2
        rwa [e1, List.drop_succ_cons] at hc2
      · rwa [e2, List.drop_succ_cons]

theorem searchPat_complete {L R : List Char} :
    ∀ {xs : List Char} {s g : Nat}, MatchesAt L R xs s g →
      ∃ s0 g0, searchPat L R xs = some (s0, g0) ∧ s0 ≤ s := by
  intro xs
  induction xs with
  | nil =>
    intro s g hm
    obtain ⟨_, h1, hb, _, _⟩ := hm
    simp at hb
    omega
  | cons x t ih =>
    intro s g hm
    cases hcase : (if L.isPrefixOf (x :: t) then
        lazyGroup R ((x :: t).drop L.length) else none) with
    | some g' => exact ⟨0, g', by simp only [searchPat, hcase], Nat.zero_le s⟩
    | none =>
      obtain ⟨hL, h1, hb, hnl, hR⟩ := hm
      have hs : 1 ≤ s := by
        rcases Nat.eq_zero_or_pos s with h0 | h0
        · exfalso
          subst h0
          rw [List.drop_zero] at hL
          have hpf := List.isPrefixOf_iff_prefix.mpr hL
          rw [if_pos hpf] at hcase
          rw [Nat.zero_add] at hb hnl hR
          have hg2 : g ≤ ((x :: t).drop L.length).length := by
            rw [List.length_drop]
            omega
          have hR2 : R <+: ((x :: t).drop L.length).drop g := by
            rw [List.drop_drop]
            exact hR
          have hnl2 : ∀ c ∈ ((x :: t).drop L.length).take g, c ≠ '\n' := hnl
          obtain ⟨g0, hg0, _⟩ := lazyGroup_complete h1 hg2 hR2 hnl2
          rw [hg0] at hcase
          cases hcase
        · exact h0
      match s, hs with
      | s' + 1, _ =>
        have e1 : s' + 1 + L.length = (s' + L.length) + 1 := by omega
        have e2 : s' + 1 + L.length + g = (s' + L.length + g) + 1 := by omega
        have hm' : MatchesAt L R t s' g := by
          refine ⟨by rwa [List.drop_succ_cons] at hL, h1, by simp at hb; omega,
            ?_, ?_⟩
          · intro c2 hc2
            apply hnl c2
            rwa [e1, List.drop_succ_cons]
          · rwa [e2, List.drop_succ_cons] at hR
        obtain ⟨s0, g0, hs0, hle⟩ := ih hm'
        exact ⟨s0 + 1, g0,
          by simp only [searchPat, hcase, hs0, Option.map_some'], by omega⟩

theorem matchesAt_decomp {L R xs : List Char} {s g : Nat}
    (hm : MatchesAt L R xs s g) :
    xs = xs.take s ++ L ++ (xs.drop (s + L.length)).take g ++ R ++
      xs.drop (s + L.length + g + R.length) := by
  obtain ⟨hL, _, _, _, hR⟩ := hm
  have e1 : xs.drop s = L ++ xs.drop (s + L.length) := prefix_drop_decomp hL
  have e2 : xs.drop (s + L.length) =
      (xs.drop (s + L.length)).take g ++ xs.drop (s + L.length + g) := by
    conv_lhs => rw [← List.take_append_drop g (xs.drop (s + L.length))]
    rw [List.drop_drop]
  have e3 : xs.drop (s + L.length + g) =
      R ++ xs.drop (s + L.length + g + R.length) := prefix_drop_decomp hR
  conv_lhs => rw [← List.take_append_drop s xs, e1, e2, e3]
  simp [List.append_assoc]

/-! ## Claim C4: lemmas about the earliest-match selection -/

theorem pickStep_eq (xs : List Char) (acc : Option PickResult)
    (p : List Char × List Char × Fmt) :
    pickStep xs acc p = acc ∨
    ∃ s g, pickStep xs acc p = some ⟨p.1, p.2.1, p.2.2, s, g⟩ ∧
      searchPat p.1 p.2.1 xs = some (s, g) := by
  unfold pickStep
  split
  case h_1 => exact Or.inl rfl
  case h_2 s g heq =>
    split
    case h_1 => exact Or.inr ⟨s, g, rfl, heq⟩
    case h_2 e =>
      split
      case isTrue => exact Or.inr ⟨s, g, rfl, heq⟩
      case isFalse => exact Or.inl rfl

theorem pickStep_min (xs : List Char) (acc : Option PickResult)
    (p : List Char × List Char × Fmt) (r : PickResult)
    (h : pickStep xs acc p = some r) :
    (∀ e, acc = some e → r.start ≤ e.start) ∧
    (∀ s g, searchPat p.1 p.2.1 xs = some (s, g) → r.start ≤ s) := by
  unfold pickStep at h
  split at h
  case h_1 heq =>
    constructor
    · intro e he
      rw [h] at he
      rw [Option.some.inj he]
    · intro s g hsg
      rw [heq] at hsg
      cases hsg
  case h_2 s g heq =>
    split at h
    case h_1 =>
      have hr := Option.some.inj h
      constructor
      · intro e he
        cases he
      · intro s' g' hsg'
        rw [heq] at hsg'
        have hp := Option.some.inj hsg'
        rw [Prod.mk.injEq] at hp
        rw [← hr, ← hp.1]
    case h_2 e =>
      split at h
      case isTrue hlt =>
        have hr := Option.some.inj h
        constructor
        · intro e' he'
          have he2 := Option.some.inj he'
          rw [← hr, ← he2]
          exact le_of_lt hlt
        · intro s' g' hsg'
          rw [heq] at hsg'
          have hp := Option.some.inj hsg'
          rw [Prod.mk.injEq] at hp
          rw [← hr, ← hp.1]
      case isFalse hlt =>
        have hr := Option.some.inj h
        constructor
        · intro e' he'
          have he2 := Option.some.inj he'
          rw [← hr, ← he2]
        · intro s' g' hsg'
          rw [heq] at hsg'
          have hp := Option.some.inj hsg'
          rw [Prod.mk.injEq] at hp
          rw [← hr]
          omega

theorem pickStep_preserve (xs : List Char)
    (p : List Char × List Char × Fmt) {e : PickResult} :
    ∃ e', pickStep xs (some e) p = some e' ∧ e'.start ≤ e.start := by
  rcases pickStep_eq xs (some e) p with heq | ⟨s, g, heq, _⟩
  · exact ⟨e, heq, le_refl _⟩
  · exact ⟨⟨p.1, p.2.1, p.2.2, s, g⟩, heq,
      (pickStep_min xs (some e) p _ heq).1 e rfl⟩

theorem pickStep_some_of_search (xs : List Char) (acc : Option PickResult)
    (p : List Char × List Char × Fmt) {s g : Nat}
    (hsg : searchPat p.1 p.2.1 xs = some (s, g)) :
    ∃ e, pickStep xs acc p = some e := by
  unfold pickStep
  split
  case h_1 heq =>
    rw [heq] at hsg
    cases hsg
  case h_2 s' g' heq =>
    split
    case h_1 => exact ⟨_, rfl⟩
    case h_2 e =>
      by_cases hlt : s' < e.start
      · exact ⟨_, by rw [if_pos hlt]⟩
      · exact ⟨e, by rw [if_neg hlt]⟩

theorem foldPick_sound (xs : List Char) :
    ∀ (ps : List (List Char × List Char × Fmt)) (acc : Option PickResult)
      (r : PickResult), ps.foldl (pickStep xs) acc = some r →
      acc = some r ∨ ((r.left, r.right, r.fmt) ∈ ps ∧
        searchPat r.left r.right xs = some (r.start, r.group)) := by
  intro ps
  induction ps with
  | nil =>
    intro acc r h
    rw [List.foldl_nil] at h
    exact Or.inl h
  | cons p ps ih =>
    intro acc r h
    rw [List.foldl_cons] at h
    rcases ih _ r h with hacc | ⟨hmem, hsp⟩
    · rcases pickStep_eq xs acc p with he | ⟨s, g, he, hsp⟩
      · rw [he] at hacc
        exact Or.inl hacc
      · right
        rw [he] at hacc
        have heq := Option.some.inj hacc
        rw [← heq]
        exact ⟨List.mem_cons_self _ _, hsp⟩
    · exact Or.inr ⟨List.mem_cons_of_mem _ hmem, hsp⟩

theorem foldPick_min (xs : List Char) :
    ∀ (ps : List (List Char × List Char × Fmt)) (acc : Option PickResult)
      (r : PickResult), ps.foldl (pickStep xs) acc = some r →
      (∀ e, acc = some e → r.start ≤ e.start) ∧
      (∀ L R f, (L, R, f) ∈ ps → ∀ s g,
        searchPat L R xs = some (s, g) → r.start ≤ s) := by
  intro ps
  induction ps with
  | nil =>
    intro acc r h
    rw [List.foldl_nil] at h
    constructor
    · intro e he
      rw [h] at he
      rw [Option.some.inj he]
    · intro L R f hmem
      cases hmem
  | cons p ps ih =>
    intro acc r h
    rw [List.foldl_cons] at h
    obtain ⟨ihacc, ihps⟩ := ih _ r h
    constructor
    · intro e he
      subst he
      obtain ⟨e', he', hle⟩ := @pickStep_preserve xs p e
      exact le_trans (ihacc e' he') hle
    · intro L R f hmem s g hsg
      rcases List.mem_cons.mp hmem with heq | hmem'
      · have hsg' : searchPat p.1 p.2.1 xs = some (s, g) := by
          rw [← heq]
          exact hsg
        obtain ⟨e'', he''⟩ := pickStep_some_of_search xs acc p hsg'
        exact le_trans (ihacc e'' he'')
          ((pickStep_min xs acc p e'' he'').2 s g hsg')
      · exact ihps L R f hmem' s g hsg

theorem foldPick_none (xs : List Char) :
    ∀ (ps : List (List Char × List Char × Fmt)) (acc : Option PickResult),
      ps.foldl (pickStep xs) acc = none →
      acc = none ∧ ∀ L R f, (L, R, f) ∈ ps → searchPat L R xs = none := by
  intro ps
  induction ps with
  | nil =>
    intro acc h
    rw [List.foldl_nil] at h
    exact ⟨h, fun L R f hm => absurd hm (List.not_mem_nil _)⟩
  | cons p ps ih =>
    intro acc h
    rw [List.foldl_cons] at h
    obtain ⟨hstep, hps⟩ := ih _ h
    have hkey : acc = none ∧ searchPat p.1 p.2.1 xs = none := by
      unfold pickStep at hstep
      split at hstep
      case h_1 heq => exact ⟨hstep, heq⟩
      case h_2 s g heq =>
        split at hstep
        · cases hstep
        · split at hstep <;> cases hstep
    refine ⟨hkey.1, ?_⟩
    intro L R f hmem
    rcases List.mem_cons.mp hmem with heq | hmem'
    · rw [← heq] at hkey
      exact hkey.2
    · exact hps L R f hmem'

theorem pickEarliest_sound {xs : List Char} {r : PickResult}
    (h : pickEarliest xs = some r) :
    (r.left, r.right, r.fmt) ∈ inlinePatterns ∧
      searchPat r.left r.right xs = some (r.start, r.group) := by
  rcases foldPick_sound xs inlinePatterns none r h with hacc | hp
  · cases hacc
  · exact hp

theorem pickEarliest_min {xs : List Char} {r : PickResult}
    (h : pickEarliest xs = some r) :
    ∀ L R f, (L, R, f) ∈ inlinePatterns → ∀ s g,
      searchPat L R xs = some (s, g) → r.start ≤ s :=
  (foldPick_min xs inlinePatterns none r h).2

theorem pickEarliest_complete {xs L R : List Char} {f : Fmt} {s g : Nat}
    (hmem : (L, R, f) ∈ inlinePatterns) (hm : MatchesAt L R xs s g) :
    ∃ r, pickEarliest xs = some r ∧ r.start ≤ s := by
  obtain ⟨s0, g0, hs0, hle⟩ := searchPat_complete hm
  cases hpe : pickEarliest xs with
  | none =>
    have hnone := (foldPick_none xs inlinePatterns none hpe).2 L R f hmem
    rw [hs0] at hnone
    cases hnone
  | some r =>
    exact ⟨r, rfl, le_trans (pickEarliest_min hpe L R f hmem s0 g0 hs0) hle⟩

/-! ## Claim C4: the scanning loop reassembles its input -/

theorem parseInlineGo_nil (fuel : Nat) : parseInlineGo fuel [] = [] := by
  cases fuel <;> rfl

theorem parseInlineGo_ne_nil {xs : List Char} (hne : xs ≠ []) {fuel : Nat}
    (hlen : xs.length ≤ fuel) : parseInlineGo fuel xs ≠ [] := by
  cases fuel with
  | zero =>
    cases xs with
    | nil => exact absurd rfl hne
    | cons a l => simp at hlen
  | succ fuel =>
    cases hpe : pickEarliest xs with
    | none =>
      have hgo : parseInlineGo (fuel + 1) xs = [(xs, ({} : Fmt))] := by
        simp only [parseInlineGo, hpe]
        rw [if_neg (by simpa [List.isEmpty_iff] using hne)]
      rw [hgo]
      simp
    | some r =>
      simp only [parseInlineGo, hpe]
      simp

theorem go_reassembles :
    ∀ (fuel : Nat) (xs : List Char), xs.length ≤ fuel →
      Reassembles (parseInlineGo fuel xs) xs := by
  intro fuel
  induction fuel with
  | zero =>
    intro xs hlen
    have hx : xs = [] := by
      cases xs with
      | nil => rfl
      | cons a l => simp at hlen
    subst hx
    exact Reassembles.nil
  | succ fuel ih =>
    intro xs hlen
    cases hpe : pickEarliest xs with
    | none =>
      by_cases hxs : xs = []
      · subst hxs
        rw [parseInlineGo_nil]
        exact Reassembles.nil
      · have hgo : parseInlineGo (fuel + 1) xs = [(xs, ({} : Fmt))] := by
          simp only [parseInlineGo, hpe]
          rw [if_neg (by simpa [List.isEmpty_iff] using hxs)]
        rw [hgo]
        exact Reassembles.trailing xs
    | some r =>
      obtain ⟨hmem, hsp⟩ := pickEarliest_sound hpe
      obtain ⟨hL, h1, hb, hnl, hR⟩ := searchPat_sound hsp
      have hdec := matchesAt_decomp ⟨hL, h1, hb, hnl, hR⟩
      have hgo : parseInlineGo (fuel + 1) xs =
          (if 0 < r.start then [(xs.take r.start, ({} : Fmt))] else []) ++
            ((xs.drop (r.start + r.left.length)).take r.group, r.fmt) ::
              parseInlineGo fuel
                (xs.drop (r.start + r.left.length + r.group +
                  r.right.length)) := by
        simp only [parseInlineGo, hpe]
      have hrest : (xs.drop (r.start + r.left.length + r.group +
          r.right.length)).length ≤ fuel := by
        rw [List.length_drop]
        omega
      have hcne : (xs.drop (r.start + r.left.length)).take r.group ≠ [] := by
        apply List.ne_nil_of_length_pos
        rw [List.length_take, List.length_drop]
        omega
      have hrec := ih _ hrest
      rw [hgo]
      by_cases hs : 0 < r.start
      · rw [if_pos hs, List.singleton_append]
        have hpne : xs.take r.start ≠ [] := by
          apply List.ne_nil_of_length_pos
          rw [List.length_take]
          omega
        have hcover := Reassembles.plainThenFmt (xs.take r.start) r.left
          r.right r.fmt ((xs.drop (r.start + r.left.length)).take r.group)
          (parseInlineGo fuel
            (xs.drop (r.start + r.left.length + r.group + r.right.length)))
          (xs.drop (r.start + r.left.length + r.group + r.right.length))
          hmem hpne hcne hrec
        rwa [← hdec] at hcover
      · rw [if_neg hs, List.nil_append]
        have hs0 : r.start = 0 := by omega
        simp only [hs0, Nat.zero_add, List.take_zero, List.nil_append]
          at hdec hcne hrec ⊢
        have hcover := Reassembles.fmtFirst r.left r.right r.fmt
          ((xs.drop r.left.length).take r.group)
          (parseInlineGo fuel
            (xs.drop (r.left.length + r.group + r.right.length)))
          (xs.drop (r.left.length + r.group + r.right.length))
          hmem hcne hrec
        rwa [← hdec] at hcover

/-! ## Claim C4 -/

/-- C4: `parse_inline_formatting` returns an ordered span sequence that
covers the input with no gaps and no overlaps — reinserting the matched
delimiters around each formatted span reassembles exactly the input
(`Reassembles`), so the concatenated span texts equal the input with the
matched marker characters removed and all other content preserved.
Moreover the selected match is the earliest-starting one: whenever any
pattern matches the text at start `s`, the candidate actually picked starts
at or before `s` (not a fixed pattern-priority order). -/
theorem c4_inline_spans_cover (t : List Char) :
    Reassembles (parse_inline_formatting t) t ∧
    (∀ L R f s g, (L, R, f) ∈ inlinePatterns → MatchesAt L R t s g →
      ∃ r, pickEarliest t = some r ∧ r.start ≤ s ∧
        (r.left, r.right, r.fmt) ∈ inlinePatterns ∧
        MatchesAt r.left r.right t r.start r.group) := by
  constructor
  · unfold parse_inline_formatting
    by_cases ht : t = []
    · subst ht
      exact Reassembles.trailing []
    · have hne := parseInlineGo_ne_nil ht (le_refl t.length)
      rw [if_neg (by simpa [List.isEmpty_iff] using hne)]
      exact go_reassembles t.length t (le_refl _)
  · intro L R f s g hmem hma
    obtain ⟨r, hr, hle⟩ := pickEarliest_complete hmem hma
    obtain ⟨hm2, hs2⟩ := pickEarliest_sound hr
    exact ⟨r, hr, hle, hm2, searchPat_sound hs2⟩

/-- Witness for C4 at the concrete text `"**bold** and *it*"`, where the
bold pattern matches at position 0 with group `"bold"`. -/
theorem c4_inline_spans_cover_witness :
    ∃ r, pickEarliest "**bold** and *it*".toList = some r ∧ r.start ≤ 0 ∧
      (r.left, r.right, r.fmt) ∈ inlinePatterns ∧
      MatchesAt r.left r.right "**bold** and *it*".toList r.start r.group :=
  (c4_inline_spans_cover "**bold** and *it*".toList).2 "**".toList
    "**".toList { bold := true } 0 4 (by decide) (by decide)

